import Mathlib

set_option maxHeartbeats 1000000

/-!
Verification development for the zvelte project scaffolder
(sources: src/unnamed/part_000 and src/bin/zvelte.js).

The development shallowly embeds:
* Node's POSIX path computations (`path.resolve`, `path.normalize`,
  `path.basename`) used by `validateTargetDir` and `updatePackageJson`,
  modelled character-by-character after Node's `normalizeString` scanner;
* the filesystem-facing project materialization state machine
  (`createProject`, `handleCurrentDirMerge`, `handleNewProjectCreation`),
  with the template fetch and removal failures supplied by an explicit
  environment, directories as association lists of named entries, and an
  event trace recording staging acquisition/release, fetch attempts and
  copies;
* the manifest rewriter `updatePackageJson` over a small JSON value type.
-/

/-! ## Path model (Node `path.posix`) -/

/-- Splits a character list into the segments between `'/'` separators,
mirroring how Node's posix `normalizeString` scans its input.  The result is
never empty, and an empty input yields one empty segment. -/
def splitSegs : List Char → List (List Char)
  | [] => [[]]
  | c :: cs =>
    if c = '/' then [] :: splitSegs cs
    else
      match splitSegs cs with
      | s :: rest => (c :: s) :: rest
      | [] => [[c]]

/-- Joins segments with `'/'` separators (inverse of `splitSegs` on
slash-free segments). -/
def joinSegs : List (List Char) → List Char
  | [] => []
  | [s] => s
  | s :: t :: rest => s ++ '/' :: joinSegs (t :: rest)

/-- One step of Node's `normalizeString` segment loop: empty and `.`
segments are skipped, `..` pops the last segment (kept, or dropped when the
path is absolute, when there is nothing to pop), and any other segment is
pushed. `above` is Node's `allowAboveRoot`. -/
def normStep (above : Bool) (stack : List (List Char)) (seg : List Char) :
    List (List Char) :=
  if seg = [] ∨ seg = ['.'] then stack
  else if seg = ['.', '.'] then
    match stack.getLast? with
    | some lastSeg =>
      if lastSeg = ['.', '.'] then (if above then stack ++ [seg] else stack)
      else stack.dropLast
    | none => if above then [seg] else []
  else stack ++ [seg]

/-- Node's `normalizeString` over a pre-split segment list. -/
def normSegs (above : Bool) (l : List (List Char)) : List (List Char) :=
  l.foldl (normStep above) []

/-- The string Node's `path.posix.resolve(cwd, input)` normalizes: the input
itself when absolute, otherwise `cwd + '/' + input`. -/
def joinedPath (cwd input : List Char) : List Char :=
  if input.head? = some '/' then input else cwd ++ '/' :: input

/-- Model of Node's `path.posix.resolve(cwd, input)` (two-argument form, as
called by `validateTargetDir` with `process.cwd()`). -/
def resolveChars (cwd input : List Char) : List Char :=
  if (joinedPath cwd input).head? = some '/' then
    if joinSegs (normSegs false (splitSegs (joinedPath cwd input))) = [] then ['/']
    else '/' :: joinSegs (normSegs false (splitSegs (joinedPath cwd input)))
  else
    if joinSegs (normSegs true (splitSegs (joinedPath cwd input))) = [] then ['.']
    else joinSegs (normSegs true (splitSegs (joinedPath cwd input)))

/-- Model of Node's `path.posix.normalize(p)`. -/
def normalizeChars (p : List Char) : List Char :=
  if p = [] then ['.']
  else if p.head? = some '/' then
    if joinSegs (normSegs false (splitSegs p)) = [] then ['/']
    else if p.getLast? = some '/' then
      '/' :: (joinSegs (normSegs false (splitSegs p)) ++ ['/'])
    else '/' :: joinSegs (normSegs false (splitSegs p))
  else
    if joinSegs (normSegs true (splitSegs p)) = [] then
      (if p.getLast? = some '/' then ['.', '/'] else ['.'])
    else if p.getLast? = some '/' then
      joinSegs (normSegs true (splitSegs p)) ++ ['/']
    else joinSegs (normSegs true (splitSegs p))

/-- A segment produced by an absolute-path normalization pass: nonempty, not
a dot segment, and slash-free. -/
def GoodSeg (s : List Char) : Prop :=
  s ≠ [] ∧ s ≠ ['.'] ∧ s ≠ ['.', '.'] ∧ '/' ∉ s

theorem splitSegs_ne_nil (cs : List Char) : splitSegs cs ≠ [] := by
  induction cs with
  | nil => simp [splitSegs]
  | cons c cs ih =>
    by_cases h : c = '/'
    · simp [splitSegs, h]
    · simp only [splitSegs, if_neg h]
      cases hsp : splitSegs cs with
      | nil => exact absurd hsp ih
      | cons s rest => simp

theorem splitSegs_no_slash (cs : List Char) : ∀ s ∈ splitSegs cs, '/' ∉ s := by
  induction cs with
  | nil =>
    intro s hs
    simp only [splitSegs, List.mem_singleton] at hs
    simp [hs]
  | cons c cs ih =>
    intro s hs
    by_cases h : c = '/'
    · simp only [splitSegs, if_pos h, List.mem_cons] at hs
      rcases hs with rfl | hs
      · simp
      · exact ih s hs
    · simp only [splitSegs, if_neg h] at hs
      cases hsp : splitSegs cs with
      | nil => exact absurd hsp (splitSegs_ne_nil cs)
      | cons s0 rest =>
        rw [hsp] at hs
        simp only [List.mem_cons] at hs
        rcases hs with rfl | hs
        · intro hmem
          rcases List.mem_cons.mp hmem with h1 | h2
          · exact h h1.symm
          · exact ih s0 (by rw [hsp]; exact List.mem_cons_self s0 rest) h2
        · exact ih s (by rw [hsp]; exact List.mem_cons.mpr (Or.inr hs))

theorem splitSegs_append (s cs : List Char) (hs : '/' ∉ s) (h0 : List Char)
    (t0 : List (List Char)) (hsp : splitSegs cs = h0 :: t0) :
    splitSegs (s ++ cs) = (s ++ h0) :: t0 := by
  induction s with
  | nil => simpa using hsp
  | cons a s ih =>
    have ha : a ≠ '/' := by
      intro h
      exact hs (by simp [h])
    have hs' : '/' ∉ s := fun h => hs (List.mem_cons.mpr (Or.inr h))
    have hrec := ih hs'
    simp only [List.cons_append, splitSegs, if_neg ha]
    rw [show s.append cs = s ++ cs from rfl, hrec]

theorem splitSegs_joinSegs (segs : List (List Char)) (hne : segs ≠ [])
    (hs : ∀ s ∈ segs, '/' ∉ s) : splitSegs (joinSegs segs) = segs := by
  induction segs with
  | nil => exact absurd rfl hne
  | cons s segs ih =>
    cases segs with
    | nil =>
      have h := splitSegs_append s [] (hs s (by simp)) [] [] rfl
      simpa [joinSegs] using h
    | cons t rest =>
      have hrest : splitSegs (joinSegs (t :: rest)) = t :: rest :=
        ih (by simp) (fun x hx => hs x (List.mem_cons.mpr (Or.inr hx)))
      have hslash : splitSegs ('/' :: joinSegs (t :: rest)) = [] :: t :: rest := by
        simp [splitSegs, hrest]
      have h := splitSegs_append s ('/' :: joinSegs (t :: rest)) (hs s (by simp))
        [] (t :: rest) hslash
      simpa [joinSegs] using h

theorem joinSegs_ne_nil (segs : List (List Char)) (hne : segs ≠ [])
    (h1 : ∀ s ∈ segs, s ≠ []) : joinSegs segs ≠ [] := by
  cases segs with
  | nil => exact absurd rfl hne
  | cons s segs =>
    cases segs with
    | nil => simpa [joinSegs] using h1 s (by simp)
    | cons t rest => simp [joinSegs]

theorem getLast?_mem_of_eq {α : Type} (l : List α) (a : α)
    (h : l.getLast? = some a) : a ∈ l := by
  induction l with
  | nil => simp at h
  | cons x l ih =>
    cases l with
    | nil =>
      simp only [List.getLast?_singleton, Option.some.injEq] at h
      simp [h]
    | cons y r =>
      rw [List.getLast?_cons_cons] at h
      exact List.mem_cons.mpr (Or.inr (ih h))

theorem getLast?_cons_of_ne_nil {α : Type} (a : α) (l : List α) (h : l ≠ []) :
    (a :: l).getLast? = l.getLast? := by
  cases l with
  | nil => exact absurd rfl h
  | cons y r => exact List.getLast?_cons_cons

theorem getLast?_append_right {α : Type} (l₁ l₂ : List α) (h : l₂ ≠ []) :
    (l₁ ++ l₂).getLast? = l₂.getLast? := by
  induction l₁ with
  | nil => simp
  | cons a l₁ ih =>
    have hne : l₁ ++ l₂ ≠ [] := by
      intro hcon
      exact h (List.append_eq_nil.mp hcon).2
    rw [List.cons_append, getLast?_cons_of_ne_nil a (l₁ ++ l₂) hne, ih]

theorem joinSegs_getLast_ne_slash (segs : List (List Char)) (hne : segs ≠ [])
    (h1 : ∀ s ∈ segs, s ≠ [] ∧ '/' ∉ s) :
    (joinSegs segs).getLast? ≠ some '/' := by
  induction segs with
  | nil => exact absurd rfl hne
  | cons s segs ih =>
    cases segs with
    | nil =>
      simp only [joinSegs]
      intro hlast
      exact (h1 s (by simp)).2 (getLast?_mem_of_eq s '/' hlast)
    | cons t rest =>
      have hJ : joinSegs (t :: rest) ≠ [] :=
        joinSegs_ne_nil (t :: rest) (by simp)
          (fun x hx => (h1 x (List.mem_cons.mpr (Or.inr hx))).1)
      have hrec := ih (by simp) (fun x hx => h1 x (List.mem_cons.mpr (Or.inr hx)))
      simp only [joinSegs]
      rw [getLast?_append_right s ('/' :: joinSegs (t :: rest)) (by simp),
        getLast?_cons_of_ne_nil '/' (joinSegs (t :: rest)) hJ]
      exact hrec

theorem normStep_false_good (stack : List (List Char)) (seg : List Char)
    (hst : ∀ s ∈ stack, GoodSeg s) (hseg : '/' ∉ seg) :
    ∀ s ∈ normStep false stack seg, GoodSeg s := by
  intro s hs
  unfold normStep at hs
  split at hs
  · exact hst s hs
  next h1 =>
    split at hs
    next h2 =>
      split at hs
      next lastSeg heq =>
        split at hs
        · simp only [Bool.false_eq_true, if_false] at hs
          exact hst s hs
        · exact hst s (List.dropLast_subset stack hs)
      next heq =>
        simp only [Bool.false_eq_true, if_false] at hs
        simp at hs
    next h2 =>
      rcases List.mem_append.mp hs with hmem | hmem
      · exact hst s hmem
      · have hseq : s = seg := by simpa using hmem
        subst hseq
        exact ⟨fun h => h1 (Or.inl h), fun h => h1 (Or.inr h), h2, hseg⟩

theorem foldl_normStep_good (l : List (List Char)) :
    ∀ stack, (∀ s ∈ stack, GoodSeg s) → (∀ s ∈ l, '/' ∉ s) →
      ∀ s ∈ List.foldl (normStep false) stack l, GoodSeg s := by
  induction l with
  | nil =>
    intro stack hst _ s hs
    exact hst s hs
  | cons seg rest ih =>
    intro stack hst hl s hs
    simp only [List.foldl_cons] at hs
    exact ih (normStep false stack seg)
      (normStep_false_good stack seg hst (hl seg (by simp)))
      (fun x hx => hl x (List.mem_cons.mpr (Or.inr hx))) s hs

theorem foldl_normStep_append (l : List (List Char)) :
    ∀ stack, (∀ s ∈ l, GoodSeg s) →
      List.foldl (normStep false) stack l = stack ++ l := by
  induction l with
  | nil =>
    intro stack _
    simp
  | cons seg rest ih =>
    intro stack hl
    have hseg : GoodSeg seg := hl seg (by simp)
    have hstep : normStep false stack seg = stack ++ [seg] := by
      unfold normStep
      rw [if_neg, if_neg hseg.2.2.1]
      rintro (h | h)
      · exact hseg.1 h
      · exact hseg.2.1 h
    simp only [List.foldl_cons, hstep]
    rw [ih (stack ++ [seg]) (fun x hx => hl x (List.mem_cons.mpr (Or.inr hx)))]
    simp

/-- Main property of the path model: the output of `path.resolve` (with an
absolute working directory) is already in normalized form, so
`path.normalize` is the identity on it. -/
theorem normalizeChars_resolveChars (cwd input : List Char)
    (habs : cwd.head? = some '/') :
    normalizeChars (resolveChars cwd input) = resolveChars cwd input := by
  have hjoined : (joinedPath cwd input).head? = some '/' := by
    unfold joinedPath
    split
    · assumption
    · cases cwd with
      | nil => simp at habs
      | cons a t =>
        simp only [List.head?_cons, Option.some.injEq] at habs
        simp [habs]
  unfold resolveChars
  rw [if_pos hjoined]
  have hgood : ∀ s ∈ normSegs false (splitSegs (joinedPath cwd input)), GoodSeg s :=
    foldl_normStep_good (splitSegs (joinedPath cwd input)) [] (by simp)
      (splitSegs_no_slash (joinedPath cwd input))
  by_cases hn : joinSegs (normSegs false (splitSegs (joinedPath cwd input))) = []
  · rw [if_pos hn]
    decide
  · rw [if_neg hn]
    set segs := normSegs false (splitSegs (joinedPath cwd input)) with hsegsdef
    have hsegne : segs ≠ [] := by
      intro h
      rw [h] at hn
      exact hn rfl
    have hsplit : splitSegs ('/' :: joinSegs segs) = [] :: segs := by
      have h := splitSegs_joinSegs segs hsegne (fun s hs => (hgood s hs).2.2.2)
      simp [splitSegs, h]
    have hns : normSegs false ([] :: segs) = segs := by
      unfold normSegs
      simp only [List.foldl_cons]
      have h0 : normStep false [] [] = [] := by decide
      rw [h0, foldl_normStep_append segs [] hgood]
      simp
    have hlast : ('/' :: joinSegs segs).getLast? ≠ some '/' := by
      rw [getLast?_cons_of_ne_nil '/' (joinSegs segs) hn]
      exact joinSegs_getLast_ne_slash segs hsegne
        (fun s hs => ⟨(hgood s hs).1, (hgood s hs).2.2.2⟩)
    unfold normalizeChars
    have hne2 : ¬('/' :: joinSegs segs) = [] := by simp
    have hh : ('/' :: joinSegs segs).head? = some '/' := rfl
    rw [if_neg hne2, if_pos hh, hsplit, hns, if_neg hn, if_neg hlast]

/-! ## Target validation (src/unnamed/part_000, `validateTargetDir`, lines 96-109) -/

/-- The two failure kinds of `validateTargetDir`. -/
inductive ValidateError where
  | invalidTarget
  | pathTraversal
deriving DecidableEq

/-- Embedding of `validateTargetDir(targetDir)` (part_000 lines 96-109).
`none` stands for a non-string argument; the JS falsiness test `!targetDir`
rejects exactly the empty string among strings.  `cwd` is `process.cwd()`. -/
def validateTargetDir (cwd : String) (targetDir : Option String) :
    Except ValidateError String :=
  match targetDir with
  | none => .error .invalidTarget
  | some s =>
    if s = "" then .error .invalidTarget
    else if normalizeChars (resolveChars cwd.data s.data) ≠ resolveChars cwd.data s.data then
      .error .pathTraversal
    else .ok (String.mk (resolveChars cwd.data s.data))

theorem validateTargetDir_ok (cwd s : String) (habs : cwd.data.head? = some '/')
    (hs : s ≠ "") :
    validateTargetDir cwd (some s) = .ok (String.mk (resolveChars cwd.data s.data)) := by
  simp only [validateTargetDir]
  rw [if_neg hs, if_neg (not_not_intro (normalizeChars_resolveChars cwd.data s.data habs))]

/-! ## Filesystem model -/

/-- A file tree: a file with string content, or a directory of named
entries. -/
inductive FSTree where
  | file (content : String)
  | dir (entries : List (String × FSTree))

/-- The listing of one directory: named top-level entries in order. -/
abbrev DirListing := List (String × FSTree)

/-- The entry names of a directory listing (`fs.readdirSync`). -/
def entryNames (d : DirListing) : List String := d.map Prod.fst

/-- Looks up a top-level entry by name. -/
def lookupEntry : DirListing → String → Option FSTree
  | [], _ => none
  | (k, v) :: rest, n => if k = n then some v else lookupEntry rest n

/-- Removes the entry called `n` (`fs.rmSync(join(dir, n), {recursive, force})`:
never throws when the entry is missing). -/
def eraseEntry (d : DirListing) (n : String) : DirListing :=
  d.filter (fun e => e.1 != n)

/-- `fs.cpSync(src, join(dst, n), {recursive: true})`: places tree `v` at
name `n`, replacing an existing entry of that name. -/
def cpEntry (d : DirListing) (n : String) (v : FSTree) : DirListing :=
  d.filter (fun e => e.1 != n) ++ [(n, v)]

/-- Classified failures of `createProject` (the thrown `Error`s of
part_000). -/
inductive CPError where
  | invalidTarget
  | pathTraversal
  | targetNotEmpty
  | fetchFailed (code : Nat)
  | conflict (files : List String)
  | copyFailed
  | rmGitFailed
deriving DecidableEq

/-- Observable filesystem effects of one `createProject` run, in order. -/
inductive Event where
  | mkdtemp
  | cloneTemp
  | cloneTarget
  | stripTempGit
  | copyEntry (name : String)
  | releaseTemp
  | rmTargetGit
deriving DecidableEq

/-- The environment supplies the outcomes of the external collaborators:
what `git clone` produces (or its failing exit code), whether
`fs.rmSync` on the target's `.git` throws, and after how many entries
`fs.cpSync` throws (`none`: all copies succeed). -/
structure Env where
  cloneResult : Except Nat DirListing
  rmGitFails : Bool
  copyFailsAfter : Option Nat

/-- The filesystem slots a run touches: the directory at the resolved
target path (`none` when it does not exist) and the staging directory. -/
structure FS where
  target : Option DirListing
  temp : Option DirListing

/-- Result, final filesystem and events of `createProject`. -/
structure Outcome where
  result : Except CPError String
  fs : FS
  events : List Event

/-- Result of a scenario handler (Unit-valued: part_000's handlers resolve
with no value or throw). -/
structure StepOut where
  result : Except CPError Unit
  fs : FS
  events : List Event

/-- Result of the copy loop over the template's top-level entries. -/
structure CopyOut where
  result : Except CPError Unit
  dir : DirListing
  events : List Event

/-- The `for (const file of templateFiles) fs.cpSync(...)` loop of
`handleCurrentDirMerge` (part_000 lines 139-143), with a possible
`cpSync` failure after `failAfter` successful copies. -/
def copyEntries (temp : DirListing) :
    Option Nat → List String → DirListing → CopyOut
  | _, [], acc => ⟨.ok (), acc, []⟩
  | failAfter, f :: rest, acc =>
    if failAfter = some 0 then ⟨.error .copyFailed, acc, []⟩
    else
      let acc' := match lookupEntry temp f with
        | some v => cpEntry acc f v
        | none => acc
      let next := copyEntries temp (failAfter.map (fun k => k - 1)) rest acc'
      ⟨next.result, next.dir, .copyEntry f :: next.events⟩

/-- Embedding of `handleCurrentDirMerge(projectPath, tempDir)` (part_000
lines 118-148): clone into the staging directory, strip its `.git`,
compare top-level names, abort on conflicts, otherwise copy every
template entry into the target. -/
def handleCurrentDirMerge (env : Env) (fs : FS) : StepOut :=
  match env.cloneResult with
  | .error code => ⟨.error (.fetchFailed code), fs, [.cloneTemp]⟩
  | .ok tree =>
    let temp1 := eraseEntry tree ".git"
    let fsB : FS := { fs with temp := some temp1 }
    let templateFiles := entryNames temp1
    let projectFiles := entryNames (fs.target.getD [])
    let conflictingFiles := templateFiles.filter (fun f => projectFiles.contains f)
    if conflictingFiles.length > 0 then
      ⟨.error (.conflict conflictingFiles), fsB, [.cloneTemp, .stripTempGit]⟩
    else
      let c := copyEntries temp1 env.copyFailsAfter templateFiles (fs.target.getD [])
      ⟨c.result, { fsB with target := some c.dir }, .cloneTemp :: .stripTempGit :: c.events⟩

/-- Embedding of `handleNewProjectCreation(projectPath)` (part_000 lines
155-172): clone directly into the target, then remove the `.git` it left;
a removal failure is logged and rethrown. -/
def handleNewProjectCreation (env : Env) (fs : FS) : StepOut :=
  match env.cloneResult with
  | .error code => ⟨.error (.fetchFailed code), fs, [.cloneTarget]⟩
  | .ok tree =>
    let fs1 : FS := { fs with target := some tree }
    if (entryNames tree).contains ".git" then
      if env.rmGitFails then ⟨.error .rmGitFailed, fs1, [.cloneTarget]⟩
      else ⟨.ok (), { fs1 with target := some (eraseEntry tree ".git") },
        [.cloneTarget, .rmTargetGit]⟩
    else ⟨.ok (), fs1, [.cloneTarget]⟩

/-- Embedding of `createProject(targetDir)` (part_000 lines 180-208):
validate, decide the scenario from raw-input alias, existence and
emptiness, and run it; the merge branch acquires the staging directory
and releases it in a `finally`. -/
def createProject (env : Env) (cwd : String) (t : Option String) (fs : FS) :
    Outcome :=
  match validateTargetDir cwd t with
  | .error .invalidTarget => ⟨.error .invalidTarget, fs, []⟩
  | .error .pathTraversal => ⟨.error .pathTraversal, fs, []⟩
  | .ok projectPath =>
    if fs.target.isSome = true ∧ ¬(fs.target.getD []).length = 0 ∧ ¬t = some "." then
      ⟨.error .targetNotEmpty, fs, []⟩
    else if t = some "." ∧ fs.target.isSome = true ∧ ¬(fs.target.getD []).length = 0 then
      let m := handleCurrentDirMerge env { fs with temp := some [] }
      ⟨(match m.result with | .ok _ => .ok projectPath | .error e => .error e),
        { m.fs with temp := none }, .mkdtemp :: m.events ++ [.releaseTemp]⟩
    else
      let c := handleNewProjectCreation env fs
      ⟨(match c.result with | .ok _ => .ok projectPath | .error e => .error e),
        c.fs, c.events⟩

/-! ## Manifest rewriting (src/unnamed/part_000, `updatePackageJson`,
lines 214-226) -/

/-- A JSON value, as produced by `JSON.parse`. -/
inductive JVal where
  | null
  | bool (b : Bool)
  | num (n : Int)
  | str (s : String)
  | arr (elems : List JVal)
  | obj (fields : List (String × JVal))

/-- First-match field lookup in a JSON object. -/
def lookupField : List (String × JVal) → String → Option JVal
  | [], _ => none
  | (k, v) :: rest, key => if k = key then some v else lookupField rest key

/-- JS property assignment `o[k] = v`: updates the field in place when
present, appends it otherwise. -/
def setField (o : List (String × JVal)) (k : String) (v : JVal) :
    List (String × JVal) :=
  if (o.map Prod.fst).contains k then
    o.map (fun e => if e.1 = k then (k, v) else e)
  else o ++ [(k, v)]

/-- Model of Node's `path.posix.basename`: the last nonempty-after-trailing-
slash segment of the path. -/
def basenameChars (p : List Char) : List Char :=
  let trimmed := (p.reverse.dropWhile (fun c => c == '/')).reverse
  (trimmed.reverse.takeWhile (fun c => c != '/')).reverse

/-- Embedding of `updatePackageJson(projectPath)` (part_000 lines 214-226):
no-op when no manifest file exists, otherwise sets `name` to the base name
of the project path, clears `description`, and pins `version` to `0.0.1`.
Reading, `JSON.parse` and writing are abstracted into the optional parsed
object `manifest` (`none`: no `package.json` in the project directory). -/
def updatePackageJson (projectPath : List Char)
    (manifest : Option (List (String × JVal))) : Option (List (String × JVal)) :=
  match manifest with
  | none => none
  | some packageJson =>
    let projectName := String.mk (basenameChars projectPath)
    some (setField (setField (setField packageJson "name" (.str projectName))
      "description" (.str "")) "version" (.str "0.0.1"))

/-! ## Support lemmas: JSON field updates -/

theorem lookupField_append (a b : List (String × JVal)) (key : String) :
    lookupField (a ++ b) key =
      match lookupField a key with
      | some v => some v
      | none => lookupField b key := by
  induction a with
  | nil => simp [lookupField]
  | cons e rest ih =>
    obtain ⟨k1, v1⟩ := e
    by_cases h : k1 = key
    · simp [lookupField, h]
    · simp [lookupField, h, ih]

theorem lookupField_none_of_not_mem (o : List (String × JVal)) (key : String)
    (h : key ∉ o.map Prod.fst) : lookupField o key = none := by
  induction o with
  | nil => rfl
  | cons e rest ih =>
    obtain ⟨k1, v1⟩ := e
    have h1 : k1 ≠ key := by
      intro hk
      exact h (by simp [hk])
    have h2 : key ∉ rest.map Prod.fst := fun hk => h (by simp [hk])
    simp [lookupField, h1, ih h2]

theorem lookupField_map_set (o : List (String × JVal)) (k : String) (v : JVal)
    (hc : k ∈ o.map Prod.fst) :
    lookupField (o.map (fun e => if e.1 = k then (k, v) else e)) k = some v := by
  induction o with
  | nil => simp at hc
  | cons e rest ih =>
    obtain ⟨k1, v1⟩ := e
    by_cases he : k1 = k
    · subst he
      have hhead : (if (k1, v1).1 = k1 then (k1, v) else (k1, v1)) = (k1, v) := by simp
      simp only [List.map_cons, hhead]
      simp [lookupField]
    · have hc' : k ∈ rest.map Prod.fst := by
        simp only [List.map_cons, List.mem_cons] at hc
        rcases hc with h | h
        · exact absurd h.symm he
        · exact h
      simp only [List.map_cons]
      rw [show (if (k1, v1).1 = k then (k, v) else (k1, v1)) = (k1, v1) from by
        simp [he]]
      simp [lookupField, he, ih hc']

theorem lookupField_map_set_other (o : List (String × JVal)) (k : String)
    (v : JVal) (key : String) (h : key ≠ k) :
    lookupField (o.map (fun e => if e.1 = k then (k, v) else e)) key =
      lookupField o key := by
  induction o with
  | nil => rfl
  | cons e rest ih =>
    obtain ⟨k1, v1⟩ := e
    by_cases he : k1 = k
    · have hk : k ≠ key := fun hh => h hh.symm
      have hk1 : k1 ≠ key := he ▸ hk
      simp only [List.map_cons]
      rw [show (if (k1, v1).1 = k then (k, v) else (k1, v1)) = (k, v) from by
        simp [he]]
      simp [lookupField, hk, hk1, ih]
    · simp only [List.map_cons]
      rw [show (if (k1, v1).1 = k then (k, v) else (k1, v1)) = (k1, v1) from by
        simp [he]]
      by_cases hkey : k1 = key
      · simp [lookupField, hkey]
      · simp [lookupField, hkey, ih]

theorem lookupField_setField_self (o : List (String × JVal)) (k : String)
    (v : JVal) : lookupField (setField o k v) k = some v := by
  unfold setField
  split
  next hc => exact lookupField_map_set o k v (by simpa using hc)
  next hc =>
    have hn : lookupField o k = none :=
      lookupField_none_of_not_mem o k (by simpa using hc)
    rw [lookupField_append, hn]
    simp [lookupField]

theorem lookupField_setField_other (o : List (String × JVal)) (k : String)
    (v : JVal) (key : String) (h : key ≠ k) :
    lookupField (setField o k v) key = lookupField o key := by
  unfold setField
  split
  next hc => exact lookupField_map_set_other o k v key h
  next hc =>
    rw [lookupField_append]
    cases hl : lookupField o key with
    | some w => simp
    | none =>
      have hk : ¬k = key := fun hh => h hh.symm
      simp [lookupField, hk]

/-! ## Support lemmas: directory listings and the copy loop -/

theorem entryNames_cons (k : String) (v : FSTree) (rest : DirListing) :
    entryNames ((k, v) :: rest) = k :: entryNames rest := rfl

theorem entryNames_append (a b : DirListing) :
    entryNames (a ++ b) = entryNames a ++ entryNames b := by
  simp [entryNames]

theorem lookupEntry_cons_ne (k : String) (v : FSTree) (rest : DirListing)
    (n : String) (h : ¬k = n) :
    lookupEntry ((k, v) :: rest) n = lookupEntry rest n := by
  simp [lookupEntry, h]

theorem lookupEntry_append (a b : DirListing) (n : String) :
    lookupEntry (a ++ b) n =
      match lookupEntry a n with
      | some v => some v
      | none => lookupEntry b n := by
  induction a with
  | nil => simp [lookupEntry]
  | cons e rest ih =>
    obtain ⟨k, v⟩ := e
    by_cases h : k = n
    · simp [lookupEntry, h]
    · simp [lookupEntry, h, ih]

theorem lookupEntry_of_mem (d : DirListing) (n : String) (v : FSTree)
    (hnd : (entryNames d).Nodup) (hmem : (n, v) ∈ d) :
    lookupEntry d n = some v := by
  induction d with
  | nil => simp at hmem
  | cons e rest ih =>
    obtain ⟨k, w⟩ := e
    have hk : k ∉ entryNames rest := (List.nodup_cons.mp hnd).1
    have hndr : (entryNames rest).Nodup := (List.nodup_cons.mp hnd).2
    rcases List.mem_cons.mp hmem with heq | hmem'
    · obtain ⟨rfl, rfl⟩ := Prod.mk.injEq .. ▸ heq
      simp [lookupEntry]
    · have hne : ¬k = n := by
        intro hkn
        subst hkn
        exact hk (List.mem_map_of_mem Prod.fst hmem')
      rw [lookupEntry_cons_ne k w rest n hne]
      exact ih hndr hmem'

theorem filterMap_congr_mem {α β : Type} (l : List α) (f g : α → Option β)
    (h : ∀ a ∈ l, f a = g a) : l.filterMap f = l.filterMap g := by
  induction l with
  | nil => rfl
  | cons a rest ih =>
    have hfa := h a (List.mem_cons_self a rest)
    have ihr := ih (fun x hx => h x (List.mem_cons.mpr (Or.inr hx)))
    cases hga : g a with
    | none => simp [List.filterMap_cons, hfa, hga, ihr]
    | some b => simp [List.filterMap_cons, hfa, hga, ihr]

theorem filterMap_lookup_id (d : DirListing) (hnd : (entryNames d).Nodup) :
    (entryNames d).filterMap
      (fun n => (lookupEntry d n).map (fun w => (n, w))) = d := by
  induction d with
  | nil => rfl
  | cons e rest ih =>
    obtain ⟨k, v⟩ := e
    have hnd' : (k :: entryNames rest).Nodup := hnd
    have hk : k ∉ entryNames rest := (List.nodup_cons.mp hnd').1
    have hndr : (entryNames rest).Nodup := (List.nodup_cons.mp hnd').2
    have hcong : (entryNames rest).filterMap
        (fun n => (lookupEntry ((k, v) :: rest) n).map (fun w => (n, w))) =
        (entryNames rest).filterMap
          (fun n => (lookupEntry rest n).map (fun w => (n, w))) :=
      filterMap_congr_mem _ _ _ (fun n hn => by
        have hne : ¬k = n := fun hh => hk (hh ▸ hn)
        rw [lookupEntry_cons_ne k v rest n hne])
    have hlk : lookupEntry ((k, v) :: rest) k = some v := by simp [lookupEntry]
    rw [entryNames_cons, List.filterMap_cons, hlk]
    simp only [Option.map_some']
    rw [hcong, ih hndr]

theorem copyEntries_all_ok (temp : DirListing) (nms : List String) :
    ∀ acc, nms.Nodup → (∀ n ∈ nms, n ∉ entryNames acc) →
      copyEntries temp none nms acc =
        ⟨.ok (),
         acc ++ nms.filterMap (fun n => (lookupEntry temp n).map (fun w => (n, w))),
         nms.map Event.copyEntry⟩ := by
  induction nms with
  | nil =>
    intro acc _ _
    simp [copyEntries]
  | cons f rest ih =>
    intro acc hnd hdisj
    have hf : f ∉ entryNames acc := hdisj f (List.mem_cons_self f rest)
    have hfrest : f ∉ rest := (List.nodup_cons.mp hnd).1
    have hndr : rest.Nodup := (List.nodup_cons.mp hnd).2
    have hfilter : acc.filter (fun e => e.1 != f) = acc := by
      rw [List.filter_eq_self]
      intro e he
      simp only [bne_iff_ne, ne_eq]
      intro hh
      exact hf (by rw [← hh]; exact List.mem_map_of_mem Prod.fst he)
    cases hl : lookupEntry temp f with
    | none =>
      have hrec := ih acc hndr
        (fun n hn => hdisj n (List.mem_cons.mpr (Or.inr hn)))
      simp [copyEntries, hl, hrec]
    | some v =>
      have hdisj' : ∀ n ∈ rest, n ∉ entryNames (acc ++ [(f, v)]) := by
        intro n hn
        rw [entryNames_append]
        intro hmem
        rcases List.mem_append.mp hmem with hm | hm
        · exact hdisj n (List.mem_cons.mpr (Or.inr hn)) hm
        · have : n = f := by simpa [entryNames] using hm
          exact hfrest (this ▸ hn)
      have hrec := ih (acc ++ [(f, v)]) hndr hdisj'
      have hcp : cpEntry acc f v = acc ++ [(f, v)] := by
        unfold cpEntry
        rw [hfilter]
      simp [copyEntries, hl, hcp, hrec]

theorem copyEntries_events_copy (temp : DirListing) (nms : List String) :
    ∀ failAfter acc, ∀ e ∈ (copyEntries temp failAfter nms acc).events,
      ∃ n, e = Event.copyEntry n := by
  induction nms with
  | nil =>
    intro failAfter acc e he
    simp [copyEntries] at he
  | cons f rest ih =>
    intro failAfter acc e he
    by_cases h0 : failAfter = some 0
    · simp [copyEntries, h0] at he
    · simp only [copyEntries, if_neg h0] at he
      rcases List.mem_cons.mp he with rfl | he'
      · exact ⟨f, rfl⟩
      · exact ih _ _ e he'

/-! ## Support lemmas: unfolding the state machine branches -/

theorem lookupEntry_none_of_not_mem (d : DirListing) (n : String)
    (h : n ∉ entryNames d) : lookupEntry d n = none := by
  induction d with
  | nil => rfl
  | cons e rest ih =>
    obtain ⟨k, v⟩ := e
    have h1 : ¬k = n := by
      intro hk
      exact h (by simp [entryNames, hk])
    have h2 : n ∉ entryNames rest := fun hk => h (by simp [entryNames] at hk ⊢; exact Or.inr hk)
    rw [lookupEntry_cons_ne k v rest n h1]
    exact ih h2

theorem hcm_fetch_fail (env : Env) (fs : FS) (code : Nat)
    (h : env.cloneResult = .error code) :
    handleCurrentDirMerge env fs = ⟨.error (.fetchFailed code), fs, [.cloneTemp]⟩ := by
  simp only [handleCurrentDirMerge, h]

theorem hcm_conflict (env : Env) (fs : FS) (tree : DirListing)
    (h : env.cloneResult = .ok tree)
    (hc : ((entryNames (eraseEntry tree ".git")).filter
      (fun f => (entryNames (fs.target.getD [])).contains f)).length > 0) :
    handleCurrentDirMerge env fs =
      ⟨.error (.conflict ((entryNames (eraseEntry tree ".git")).filter
        (fun f => (entryNames (fs.target.getD [])).contains f))),
       { fs with temp := some (eraseEntry tree ".git") },
       [.cloneTemp, .stripTempGit]⟩ := by
  simp only [handleCurrentDirMerge, h]
  rw [if_pos hc]

theorem hcm_no_conflict (env : Env) (fs : FS) (tree : DirListing)
    (h : env.cloneResult = .ok tree)
    (hc : ¬((entryNames (eraseEntry tree ".git")).filter
      (fun f => (entryNames (fs.target.getD [])).contains f)).length > 0) :
    handleCurrentDirMerge env fs =
      ⟨(copyEntries (eraseEntry tree ".git") env.copyFailsAfter
          (entryNames (eraseEntry tree ".git")) (fs.target.getD [])).result,
       { fs with
         temp := some (eraseEntry tree ".git")
         target := some (copyEntries (eraseEntry tree ".git") env.copyFailsAfter
           (entryNames (eraseEntry tree ".git")) (fs.target.getD [])).dir },
       .cloneTemp :: .stripTempGit ::
         (copyEntries (eraseEntry tree ".git") env.copyFailsAfter
           (entryNames (eraseEntry tree ".git")) (fs.target.getD [])).events⟩ := by
  simp only [handleCurrentDirMerge, h]
  rw [if_neg hc]

theorem hcm_events_no_release (env : Env) (fs : FS) :
    Event.releaseTemp ∉ (handleCurrentDirMerge env fs).events := by
  cases hcr : env.cloneResult with
  | error code => simp [hcm_fetch_fail env fs code hcr]
  | ok tree =>
    by_cases hc : ((entryNames (eraseEntry tree ".git")).filter
      (fun f => (entryNames (fs.target.getD [])).contains f)).length > 0
    · simp [hcm_conflict env fs tree hcr hc]
    · rw [hcm_no_conflict env fs tree hcr hc]
      intro hmem
      simp only [List.mem_cons] at hmem
      rcases hmem with h | h | h
      · exact absurd h (by decide)
      · exact absurd h (by decide)
      · obtain ⟨n, hn⟩ := copyEntries_events_copy _ _ _ _ _ h
        simp at hn

theorem hnp_fetch_fail (env : Env) (fs : FS) (code : Nat)
    (h : env.cloneResult = .error code) :
    handleNewProjectCreation env fs =
      ⟨.error (.fetchFailed code), fs, [.cloneTarget]⟩ := by
  simp only [handleNewProjectCreation, h]

theorem hnp_git_fail (env : Env) (fs : FS) (tree : DirListing)
    (h : env.cloneResult = .ok tree)
    (hgit : (entryNames tree).contains ".git" = true)
    (hrm : env.rmGitFails = true) :
    handleNewProjectCreation env fs =
      ⟨.error .rmGitFailed, { fs with target := some tree }, [.cloneTarget]⟩ := by
  have hmem : ".git" ∈ entryNames tree := by simpa using hgit
  simp [handleNewProjectCreation, h, hmem, hrm]

theorem hnp_git_ok (env : Env) (fs : FS) (tree : DirListing)
    (h : env.cloneResult = .ok tree)
    (hgit : (entryNames tree).contains ".git" = true)
    (hrm : env.rmGitFails = false) :
    handleNewProjectCreation env fs =
      ⟨.ok (), { fs with target := some (eraseEntry tree ".git") },
       [.cloneTarget, .rmTargetGit]⟩ := by
  have hmem : ".git" ∈ entryNames tree := by simpa using hgit
  simp [handleNewProjectCreation, h, hmem, hrm]

theorem createProject_merge (env : Env) (cwd : String) (fs : FS) (es : DirListing)
    (habs : cwd.data.head? = some '/') (ht : fs.target = some es) (hne : es ≠ []) :
    createProject env cwd (some ".") fs =
      ⟨(match (handleCurrentDirMerge env { fs with temp := some [] }).result with
        | .ok _ => .ok (String.mk (resolveChars cwd.data ".".data))
        | .error e => .error e),
       { (handleCurrentDirMerge env { fs with temp := some [] }).fs with temp := none },
       .mkdtemp :: (handleCurrentDirMerge env { fs with temp := some [] }).events
         ++ [.releaseTemp]⟩ := by
  have hval := validateTargetDir_ok cwd "." habs (by decide)
  have hlen : ¬(es.length = 0) := by simpa [List.length_eq_zero] using hne
  simp [createProject, hval, ht, hlen]

theorem createProject_reject (env : Env) (cwd s : String) (fs : FS)
    (es : DirListing) (habs : cwd.data.head? = some '/') (hs : s ≠ "")
    (hdot : s ≠ ".") (ht : fs.target = some es) (hne : es ≠ []) :
    createProject env cwd (some s) fs = ⟨.error .targetNotEmpty, fs, []⟩ := by
  have hval := validateTargetDir_ok cwd s habs hs
  have hlen : ¬(es.length = 0) := by simpa [List.length_eq_zero] using hne
  simp [createProject, hval, ht, hlen, hdot]

theorem createProject_fresh_none (env : Env) (cwd s : String) (fs : FS)
    (habs : cwd.data.head? = some '/') (hs : s ≠ "") (ht : fs.target = none) :
    createProject env cwd (some s) fs =
      ⟨(match (handleNewProjectCreation env fs).result with
        | .ok _ => .ok (String.mk (resolveChars cwd.data s.data))
        | .error e => .error e),
       (handleNewProjectCreation env fs).fs,
       (handleNewProjectCreation env fs).events⟩ := by
  have hval := validateTargetDir_ok cwd s habs hs
  simp [createProject, hval, ht]

/-! ## Wrappers stating the merge branches over the target's listing -/

theorem hcm_conflict_es (env : Env) (fs : FS) (es tree : DirListing)
    (ht : fs.target = some es) (h : env.cloneResult = .ok tree)
    (hc : ((entryNames (eraseEntry tree ".git")).filter
      (fun f => (entryNames es).contains f)).length > 0) :
    handleCurrentDirMerge env fs =
      ⟨.error (.conflict ((entryNames (eraseEntry tree ".git")).filter
        (fun f => (entryNames es).contains f))),
       { fs with temp := some (eraseEntry tree ".git") },
       [.cloneTemp, .stripTempGit]⟩ := by
  have hx := hcm_conflict env fs tree h (by simp only [ht, Option.getD_some]; exact hc)
  rw [hx]
  simp only [ht, Option.getD_some]

theorem hcm_no_conflict_es (env : Env) (fs : FS) (es tree : DirListing)
    (ht : fs.target = some es) (h : env.cloneResult = .ok tree)
    (hc : ¬((entryNames (eraseEntry tree ".git")).filter
      (fun f => (entryNames es).contains f)).length > 0) :
    handleCurrentDirMerge env fs =
      ⟨(copyEntries (eraseEntry tree ".git") env.copyFailsAfter
          (entryNames (eraseEntry tree ".git")) es).result,
       { fs with
         temp := some (eraseEntry tree ".git")
         target := some (copyEntries (eraseEntry tree ".git") env.copyFailsAfter
           (entryNames (eraseEntry tree ".git")) es).dir },
       .cloneTemp :: .stripTempGit ::
         (copyEntries (eraseEntry tree ".git") env.copyFailsAfter
           (entryNames (eraseEntry tree ".git")) es).events⟩ := by
  have hx := hcm_no_conflict env fs tree h (by simp only [ht, Option.getD_some]; exact hc)
  rw [hx]
  simp only [ht, Option.getD_some]

/-! ## The claims -/

/-- Claim C8: the PathTraversalError branch of target validation is
unreachable: for every string input, the path returned by resolution is
already in normalized form (normalize(resolve(input)) = resolve(input)),
so validateTargetDir can only ever fail with InvalidTargetError, never
with PathTraversalError. -/
theorem C8_no_path_traversal (cwd input : String) (t : Option String)
    (habs : cwd.data.head? = some '/') :
    normalizeChars (resolveChars cwd.data input.data) =
      resolveChars cwd.data input.data ∧
    validateTargetDir cwd t ≠ .error .pathTraversal := by
  refine ⟨normalizeChars_resolveChars cwd.data input.data habs, ?_⟩
  match t with
  | none => simp [validateTargetDir]
  | some s =>
    by_cases hs : s = ""
    · simp [validateTargetDir, hs]
    · rw [validateTargetDir_ok cwd s habs hs]
      simp

theorem C8_witness :
    ("/base".data.head? = some '/') ∧
    (normalizeChars (resolveChars "/base".data "a/../b".data) =
      resolveChars "/base".data "a/../b".data ∧
     validateTargetDir "/base" (some "a/../b") ≠ .error .pathTraversal) :=
  ⟨by decide, C8_no_path_traversal "/base" "a/../b" (some "a/../b") (by decide)⟩

/-- Claim C6: target validation fails with InvalidTargetError for empty or
non-string raw input, fails with PathTraversalError exactly for inputs
whose normalized resolved path differs from the resolved path, is a pure
path computation (no I/O in the model), and otherwise returns the
resolved absolute path. -/
theorem C6_validateTargetDir_contract (cwd s : String) (hs : s ≠ "") :
    validateTargetDir cwd none = .error .invalidTarget ∧
    validateTargetDir cwd (some "") = .error .invalidTarget ∧
    validateTargetDir cwd (some s) =
      (if normalizeChars (resolveChars cwd.data s.data) ≠ resolveChars cwd.data s.data
       then .error .pathTraversal
       else .ok (String.mk (resolveChars cwd.data s.data))) := by
  refine ⟨rfl, by simp [validateTargetDir], ?_⟩
  simp only [validateTargetDir, if_neg hs]

theorem C6_witness :
    (("proj" : String) ≠ "") ∧
    (validateTargetDir "/base" none = .error .invalidTarget ∧
     validateTargetDir "/base" (some "") = .error .invalidTarget ∧
     validateTargetDir "/base" (some "proj") =
       (if normalizeChars (resolveChars "/base".data "proj".data) ≠
            resolveChars "/base".data "proj".data
        then .error .pathTraversal
        else .ok (String.mk (resolveChars "/base".data "proj".data)))) :=
  ⟨by decide, C6_validateTargetDir_contract "/base" "proj" (by decide)⟩

/-- Claim C4: for every target that exists, is non-empty, and is not the
current-directory alias, createProject fails with the target-not-empty
error and performs no filesystem mutation: the final filesystem equals the
initial one and the event trace is empty (no staging directory created,
no fetch attempted). -/
theorem C4_nonempty_named_target_rejected (env : Env) (cwd s : String)
    (fs : FS) (es : DirListing) (habs : cwd.data.head? = some '/')
    (hs : s ≠ "") (hdot : s ≠ ".") (ht : fs.target = some es) (hne : es ≠ []) :
    createProject env cwd (some s) fs = ⟨.error .targetNotEmpty, fs, []⟩ :=
  createProject_reject env cwd s fs es habs hs hdot ht hne

def envFix : Env := ⟨.ok [("package.json", .file "t")], false, none⟩

def fsFix : FS := ⟨some [("data.txt", .file "d")], none⟩

theorem C4_witness :
    (("sub" : String) ≠ "" ∧ ("sub" : String) ≠ "." ∧
     fsFix.target = some [("data.txt", FSTree.file "d")] ∧
     ([("data.txt", FSTree.file "d")] : DirListing) ≠ []) ∧
    createProject envFix "/base" (some "sub") fsFix =
      ⟨.error .targetNotEmpty, fsFix, []⟩ :=
  ⟨⟨by decide, by decide, rfl, by simp⟩,
   C4_nonempty_named_target_rejected envFix "/base" "sub" fsFix
     [("data.txt", FSTree.file "d")] (by decide) (by decide) (by decide) rfl
     (by simp)⟩

/-- Claim C9: only the literal input "." selects the merge scenario: any
other spelling whose resolved path equals that of "." (such as "./") is
treated as a named target, so with a non-empty existing directory it fails
with the target-not-empty error, while "." itself enters the merge branch
(its first effect is acquiring the staging directory). -/
theorem C9_only_literal_dot_merges (env : Env) (cwd s : String) (fs : FS)
    (es : DirListing) (habs : cwd.data.head? = some '/') (hs : s ≠ "")
    (hdot : s ≠ ".")
    (hres : resolveChars cwd.data s.data = resolveChars cwd.data ".".data)
    (ht : fs.target = some es) (hne : es ≠ []) :
    (createProject env cwd (some s) fs).result = .error .targetNotEmpty ∧
    (createProject env cwd (some ".") fs).events.head? = some .mkdtemp := by
  constructor
  · rw [createProject_reject env cwd s fs es habs hs hdot ht hne]
  · rw [createProject_merge env cwd fs es habs ht hne]
    rfl

theorem C9_witness :
    (("./" : String) ≠ "" ∧ ("./" : String) ≠ "." ∧
     resolveChars "/base".data "./".data = resolveChars "/base".data ".".data ∧
     fsFix.target = some [("data.txt", FSTree.file "d")] ∧
     ([("data.txt", FSTree.file "d")] : DirListing) ≠ []) ∧
    ((createProject envFix "/base" (some "./") fsFix).result =
      .error .targetNotEmpty ∧
     (createProject envFix "/base" (some ".") fsFix).events.head? =
      some .mkdtemp) :=
  ⟨⟨by decide, by decide, by decide, rfl, by simp⟩,
   C9_only_literal_dot_merges envFix "/base" "./" fsFix
     [("data.txt", FSTree.file "d")] (by decide) (by decide) (by decide)
     (by decide) rfl (by simp)⟩

/-- Claim C1: in the merge scenario (target is the literal "." and the
directory is non-empty), when the stripped template and the existing
directory share top-level entry names, createProject fails with the
conflict error carrying exactly the shared names (each listed name is a
shared name and every shared name is listed), and no file is copied: the
target listing is unchanged and no copy event occurs. -/
theorem C1_merge_conflict_rejects (env : Env) (cwd : String) (fs : FS)
    (es tree : DirListing) (habs : cwd.data.head? = some '/')
    (ht : fs.target = some es) (hne : es ≠ [])
    (hclone : env.cloneResult = .ok tree)
    (hconf : ((entryNames (eraseEntry tree ".git")).filter
      (fun f => (entryNames es).contains f)).length > 0) :
    (createProject env cwd (some ".") fs).result =
      .error (.conflict ((entryNames (eraseEntry tree ".git")).filter
        (fun f => (entryNames es).contains f))) ∧
    (∀ f, f ∈ (entryNames (eraseEntry tree ".git")).filter
        (fun f => (entryNames es).contains f) ↔
      f ∈ entryNames (eraseEntry tree ".git") ∧ f ∈ entryNames es) ∧
    (createProject env cwd (some ".") fs).fs.target = some es ∧
    (∀ n, Event.copyEntry n ∉ (createProject env cwd (some ".") fs).events) := by
  have hm := createProject_merge env cwd fs es habs ht hne
  have hcm := hcm_conflict_es env { fs with temp := some [] } es tree ht hclone hconf
  rw [hm, hcm]
  refine ⟨rfl, ?_, ht, ?_⟩
  · intro f
    simp [List.mem_filter]
  · intro n
    simp

def envC1 : Env :=
  ⟨.ok [(".git", .dir []), ("data.txt", .file "t")], false, none⟩

theorem C1_witness :
    (fsFix.target = some [("data.txt", FSTree.file "d")] ∧
     ([("data.txt", FSTree.file "d")] : DirListing) ≠ [] ∧
     envC1.cloneResult =
       .ok [(".git", FSTree.dir []), ("data.txt", FSTree.file "t")] ∧
     ((entryNames (eraseEntry
         [(".git", FSTree.dir []), ("data.txt", FSTree.file "t")] ".git")).filter
       (fun f => (entryNames [("data.txt", FSTree.file "d")]).contains f)).length
       > 0) ∧
    ((createProject envC1 "/base" (some ".") fsFix).result =
      .error (.conflict ((entryNames (eraseEntry
        [(".git", FSTree.dir []), ("data.txt", FSTree.file "t")] ".git")).filter
        (fun f => (entryNames [("data.txt", FSTree.file "d")]).contains f))) ∧
     (∀ f, f ∈ (entryNames (eraseEntry
         [(".git", FSTree.dir []), ("data.txt", FSTree.file "t")] ".git")).filter
         (fun f => (entryNames [("data.txt", FSTree.file "d")]).contains f) ↔
       f ∈ entryNames (eraseEntry
         [(".git", FSTree.dir []), ("data.txt", FSTree.file "t")] ".git") ∧
       f ∈ entryNames [("data.txt", FSTree.file "d")]) ∧
     (createProject envC1 "/base" (some ".") fsFix).fs.target =
       some [("data.txt", FSTree.file "d")] ∧
     (∀ n, Event.copyEntry n ∉ (createProject envC1 "/base" (some ".") fsFix).events)) :=
  ⟨⟨rfl, by simp, rfl, by decide⟩,
   C1_merge_conflict_rejects envC1 "/base" fsFix [("data.txt", FSTree.file "d")]
     [(".git", FSTree.dir []), ("data.txt", FSTree.file "t")] (by decide) rfl
     (by simp) rfl (by decide)⟩

/-- Claim C3: in every merge-scenario run, whatever the fetch, conflict and
copy outcomes, the staging directory is released exactly once (one release
event, occurring last, hence after any fetch or copy attempt and before
createProject returns or re-raises) and no staging directory remains. -/
theorem C3_staging_released_exactly_once (env : Env) (cwd : String) (fs : FS)
    (es : DirListing) (habs : cwd.data.head? = some '/')
    (ht : fs.target = some es) (hne : es ≠ []) :
    (createProject env cwd (some ".") fs).events.count .releaseTemp = 1 ∧
    (createProject env cwd (some ".") fs).events.getLast? = some .releaseTemp ∧
    (createProject env cwd (some ".") fs).fs.temp = none := by
  have hm := createProject_merge env cwd fs es habs ht hne
  rw [hm]
  have hnorel : Event.releaseTemp ∉
      (handleCurrentDirMerge env { fs with temp := some [] }).events :=
    hcm_events_no_release env _
  refine ⟨?_, ?_, rfl⟩
  · have h0 : (handleCurrentDirMerge env { fs with temp := some [] }).events.count
        Event.releaseTemp = 0 := List.count_eq_zero.mpr hnorel
    simp [List.count_cons, List.count_append, h0]
  · show (Event.mkdtemp ::
      (handleCurrentDirMerge env { fs with temp := some [] }).events
        ++ [Event.releaseTemp]).getLast? = some Event.releaseTemp
    rw [show Event.mkdtemp ::
        (handleCurrentDirMerge env { fs with temp := some [] }).events
          ++ [Event.releaseTemp] =
      (Event.mkdtemp ::
        (handleCurrentDirMerge env { fs with temp := some [] }).events)
          ++ [Event.releaseTemp] from rfl]
    rw [getLast?_append_right _ _ (by simp)]
    rfl

def envC3 : Env := ⟨.error 1, false, none⟩

theorem C3_witness :
    (fsFix.target = some [("data.txt", FSTree.file "d")] ∧
     ([("data.txt", FSTree.file "d")] : DirListing) ≠ []) ∧
    ((createProject envC3 "/base" (some ".") fsFix).events.count .releaseTemp = 1 ∧
     (createProject envC3 "/base" (some ".") fsFix).events.getLast? =
       some .releaseTemp ∧
     (createProject envC3 "/base" (some ".") fsFix).fs.temp = none) :=
  ⟨⟨rfl, by simp⟩,
   C3_staging_released_exactly_once envC3 "/base" fsFix
     [("data.txt", FSTree.file "d")] (by decide) rfl (by simp)⟩

/-- Claim C2: in the merge scenario, when the stripped template and the
existing directory share no top-level entry names and fetch and copy
succeed, createProject returns the project path, every top-level entry of
the stripped template exists under the target with contents identical to
the fetched template, pre-existing entries of the target are unchanged,
and the staging directory no longer exists. -/
theorem C2_merge_success_copies_template (env : Env) (cwd : String) (fs : FS)
    (es tree : DirListing) (habs : cwd.data.head? = some '/')
    (ht : fs.target = some es) (hne : es ≠ [])
    (hclone : env.cloneResult = .ok tree) (hcopy : env.copyFailsAfter = none)
    (hndT : (entryNames (eraseEntry tree ".git")).Nodup)
    (hndE : (entryNames es).Nodup)
    (hdisj : ∀ f ∈ entryNames (eraseEntry tree ".git"), f ∉ entryNames es) :
    (createProject env cwd (some ".") fs).result =
      .ok (String.mk (resolveChars cwd.data ".".data)) ∧
    (createProject env cwd (some ".") fs).fs.target =
      some (es ++ eraseEntry tree ".git") ∧
    (∀ n v, (n, v) ∈ eraseEntry tree ".git" →
      lookupEntry (es ++ eraseEntry tree ".git") n = some v) ∧
    (∀ n v, (n, v) ∈ es →
      lookupEntry (es ++ eraseEntry tree ".git") n = some v) ∧
    (createProject env cwd (some ".") fs).fs.temp = none := by
  have hfilter : (entryNames (eraseEntry tree ".git")).filter
      (fun f => (entryNames es).contains f) = [] := by
    rw [List.filter_eq_nil_iff]
    intro f hf
    simpa using hdisj f hf
  have hc : ¬((entryNames (eraseEntry tree ".git")).filter
      (fun f => (entryNames es).contains f)).length > 0 := by
    rw [hfilter]
    simp
  have hm := createProject_merge env cwd fs es habs ht hne
  have hcm := hcm_no_conflict_es env { fs with temp := some [] } es tree ht hclone hc
  rw [hcopy] at hcm
  rw [copyEntries_all_ok (eraseEntry tree ".git")
    (entryNames (eraseEntry tree ".git")) es hndT hdisj] at hcm
  rw [filterMap_lookup_id (eraseEntry tree ".git") hndT] at hcm
  rw [hm, hcm]
  refine ⟨rfl, rfl, ?_, ?_, rfl⟩
  · intro n v hmem
    have hn : n ∉ entryNames es := hdisj n (List.mem_map_of_mem Prod.fst hmem)
    have h1 : lookupEntry es n = none := lookupEntry_none_of_not_mem es n hn
    have h2 : lookupEntry (eraseEntry tree ".git") n = some v :=
      lookupEntry_of_mem (eraseEntry tree ".git") n v hndT hmem
    simp [lookupEntry_append, h1, h2]
  · intro n v hmem
    have h1 : lookupEntry es n = some v := lookupEntry_of_mem es n v hndE hmem
    simp [lookupEntry_append, h1]

def envC2 : Env := ⟨.ok [(".git", .dir []), ("app.js", .file "x")], false, none⟩

theorem C2_witness :
    (fsFix.target = some [("data.txt", FSTree.file "d")] ∧
     ([("data.txt", FSTree.file "d")] : DirListing) ≠ [] ∧
     envC2.cloneResult =
       .ok [(".git", FSTree.dir []), ("app.js", FSTree.file "x")] ∧
     envC2.copyFailsAfter = none ∧
     (entryNames (eraseEntry
       [(".git", FSTree.dir []), ("app.js", FSTree.file "x")] ".git")).Nodup ∧
     (entryNames [("data.txt", FSTree.file "d")]).Nodup ∧
     (∀ f ∈ entryNames (eraseEntry
         [(".git", FSTree.dir []), ("app.js", FSTree.file "x")] ".git"),
       f ∉ entryNames [("data.txt", FSTree.file "d")])) ∧
    ((createProject envC2 "/base" (some ".") fsFix).result =
       .ok (String.mk (resolveChars "/base".data ".".data)) ∧
     (createProject envC2 "/base" (some ".") fsFix).fs.target =
       some ([("data.txt", FSTree.file "d")] ++ eraseEntry
         [(".git", FSTree.dir []), ("app.js", FSTree.file "x")] ".git") ∧
     (∀ n v, (n, v) ∈ eraseEntry
         [(".git", FSTree.dir []), ("app.js", FSTree.file "x")] ".git" →
       lookupEntry ([("data.txt", FSTree.file "d")] ++ eraseEntry
         [(".git", FSTree.dir []), ("app.js", FSTree.file "x")] ".git") n = some v) ∧
     (∀ n v, (n, v) ∈ ([("data.txt", FSTree.file "d")] : DirListing) →
       lookupEntry ([("data.txt", FSTree.file "d")] ++ eraseEntry
         [(".git", FSTree.dir []), ("app.js", FSTree.file "x")] ".git") n = some v) ∧
     (createProject envC2 "/base" (some ".") fsFix).fs.temp = none) :=
  ⟨⟨rfl, by simp, rfl, rfl, by decide, by decide, by decide⟩,
   C2_merge_success_copies_template envC2 "/base" fsFix
     [("data.txt", FSTree.file "d")]
     [(".git", FSTree.dir []), ("app.js", FSTree.file "x")] (by decide) rfl
     (by simp) rfl rfl (by decide) (by decide) (by decide)⟩

def envC5 : Env := ⟨.ok [(".git", .dir []), ("src", .file "s")], true, none⟩

/-- Claim C5 counterexample: in the fresh-create scenario with a successful
fetch that leaves `.git` and a failing removal, createProject does not
return the project path successfully: the removal error is rethrown. -/
theorem C5_counterexample_rm_failure_fatal :
    (createProject envC5 "/base" (some "app") ⟨none, none⟩).result =
      .error .rmGitFailed := rfl

/-- Claim C5 (amended): in the fresh-create scenario, after a successful
fetch the `.git` directory left in the target is removed when removal
succeeds and the project path is returned; when removal fails, the error
is logged and rethrown, so createProject fails instead of returning. -/
theorem C5_amended_rmgit_fatal (env : Env) (cwd s : String) (fs : FS)
    (tree : DirListing) (habs : cwd.data.head? = some '/') (hs : s ≠ "")
    (ht : fs.target = none) (hclone : env.cloneResult = .ok tree)
    (hgit : (entryNames tree).contains ".git" = true) :
    (createProject env cwd (some s) fs).result =
      (if env.rmGitFails then .error .rmGitFailed
       else .ok (String.mk (resolveChars cwd.data s.data))) ∧
    (createProject env cwd (some s) fs).fs.target =
      some (if env.rmGitFails then tree else eraseEntry tree ".git") := by
  have hm := createProject_fresh_none env cwd s fs habs hs ht
  rw [hm]
  cases hrm : env.rmGitFails with
  | true =>
    rw [hnp_git_fail env fs tree hclone hgit hrm]
    exact ⟨rfl, rfl⟩
  | false =>
    rw [hnp_git_ok env fs tree hclone hgit hrm]
    exact ⟨rfl, rfl⟩

theorem C5_witness :
    (("app" : String) ≠ "" ∧ (⟨none, none⟩ : FS).target = none ∧
     envC5.cloneResult =
       .ok [(".git", FSTree.dir []), ("src", FSTree.file "s")] ∧
     (entryNames [(".git", FSTree.dir []),
       ("src", FSTree.file "s")]).contains ".git" = true) ∧
    ((createProject envC5 "/base" (some "app") ⟨none, none⟩).result =
       (if envC5.rmGitFails then .error .rmGitFailed
        else .ok (String.mk (resolveChars "/base".data "app".data))) ∧
     (createProject envC5 "/base" (some "app") ⟨none, none⟩).fs.target =
       some (if envC5.rmGitFails
         then [(".git", FSTree.dir []), ("src", FSTree.file "s")]
         else eraseEntry [(".git", FSTree.dir []),
           ("src", FSTree.file "s")] ".git")) :=
  ⟨⟨by decide, rfl, rfl, by decide⟩,
   C5_amended_rmgit_fatal envC5 "/base" "app" ⟨none, none⟩
     [(".git", FSTree.dir []), ("src", FSTree.file "s")] (by decide) (by decide)
     rfl rfl (by decide)⟩

/-- Claim C7: for every project path whose directory contains a manifest,
the rewriter sets name to the base name of the project path, sets
description to the empty string and version to the placeholder "0.0.1";
without a manifest it performs no write and raises no error. -/
theorem C7_updatePackageJson_fields (projectPath : List Char)
    (obj : List (String × JVal)) :
    updatePackageJson projectPath none = none ∧
    (updatePackageJson projectPath (some obj)).isSome = true ∧
    lookupField ((updatePackageJson projectPath (some obj)).getD []) "name" =
      some (.str (String.mk (basenameChars projectPath))) ∧
    lookupField ((updatePackageJson projectPath (some obj)).getD []) "description" =
      some (.str "") ∧
    lookupField ((updatePackageJson projectPath (some obj)).getD []) "version" =
      some (.str "0.0.1") := by
  refine ⟨rfl, rfl, ?_, ?_, ?_⟩
  · simp only [updatePackageJson, Option.getD_some]
    rw [lookupField_setField_other _ _ _ _ (by decide),
      lookupField_setField_other _ _ _ _ (by decide),
      lookupField_setField_self]
  · simp only [updatePackageJson, Option.getD_some]
    rw [lookupField_setField_other _ _ _ _ (by decide),
      lookupField_setField_self]
  · simp only [updatePackageJson, Option.getD_some]
    rw [lookupField_setField_self]

/-- Claim C10: when the rewriter runs on a parseable manifest, every field
other than name, description and version is preserved unchanged. -/
theorem C10_updatePackageJson_frame (projectPath : List Char)
    (obj : List (String × JVal)) (key : String) (h1 : key ≠ "name")
    (h2 : key ≠ "description") (h3 : key ≠ "version") :
    lookupField ((updatePackageJson projectPath (some obj)).getD []) key =
      lookupField obj key := by
  simp only [updatePackageJson, Option.getD_some]
  rw [lookupField_setField_other _ _ _ _ h3,
    lookupField_setField_other _ _ _ _ h2,
    lookupField_setField_other _ _ _ _ h1]

theorem C10_witness :
    (("license" : String) ≠ "name" ∧ ("license" : String) ≠ "description" ∧
     ("license" : String) ≠ "version") ∧
    lookupField ((updatePackageJson "app".data
      (some [("license", JVal.str "MIT")])).getD []) "license" =
      lookupField [("license", JVal.str "MIT")] "license" :=
  ⟨⟨by decide, by decide, by decide⟩,
   C10_updatePackageJson_frame "app".data [("license", JVal.str "MIT")]
     "license" (by decide) (by decide) (by decide)⟩
